import Mathlib

/-!
Verification of the hedtronix replication core: a shallow embedding of the
CRDT primitives, the version vector, the change journal, the conflict
resolver and the field-encryption entry points, with theorems settling the
specification's claims against the embedded code.

Conventions of the embedding:
* Rust `Uuid` values (device ids, entity ids, change ids) are modelled as
  `Nat`; `DateTime<Utc>` timestamps as `Nat`; strings stay `String`.
* `Uuid::new_v4()` and `Utc::now()` are non-deterministic inputs of the
  Rust code, so every embedded function that calls them takes the produced
  value as an explicit oracle argument (`freshId`, `now`).
* A Rust `HashMap` is modelled by an association list together with the
  key-uniqueness invariant where the list order is irrelevant, and map
  ("structural") equality is expressed through lookups; for the version
  vector a canonical (key-sorted) list is used so that Lean equality of
  representations coincides with Rust `HashMap` equality.
* Fallible Rust functions returning `Result` are modelled with `Except`.
-/

/-! ## Version vector (`hedtronix-core/src/crdt/version_vector.rs`)

`VersionVector { versions: HashMap<Uuid, u64> }` is modelled as a
key-sorted association list `List (Nat × Nat)`.  On key-sorted lists,
list equality is exactly `HashMap` equality (same key set, same values),
which is what `#[derive(PartialEq)]` gives the Rust struct. -/

/-- The version-vector representation: device id paired with its counter. -/
abbrev VersionVector : Type := List (Nat × Nat)

/-- `VersionVector::new()` — the empty map. -/
def VersionVector.new : VersionVector := []

/-- Well-formedness of the representation: keys pairwise strictly
increasing, which is the canonical form for a `HashMap` snapshot and
implies key uniqueness. -/
def VersionVector.WF (v : VersionVector) : Prop :=
  List.Pairwise (fun p q => p.1 < q.1) v

instance (v : VersionVector) : Decidable v.WF :=
  List.instDecidablePairwise v

/-- `VersionVector::get` — `versions.get(d).copied().unwrap_or(0)`. -/
def VersionVector.get : VersionVector → Nat → Nat
  | [], _ => 0
  | p :: rest, d => if p.1 = d then p.2 else VersionVector.get rest d

/-- `versions.contains_key(d)`. -/
def VersionVector.hasKey (v : VersionVector) (d : Nat) : Bool :=
  v.any (fun p => p.1 == d)

/-- `VersionVector::increment` — `entry(d).or_insert(0); *counter += 1`,
inserting at the sorted position to keep the representation canonical. -/
def VersionVector.increment : VersionVector → Nat → VersionVector
  | [], d => [(d, 1)]
  | p :: rest, d =>
    if d < p.1 then (d, 1) :: p :: rest
    else if d = p.1 then (p.1, p.2 + 1) :: rest
    else p :: VersionVector.increment rest d

/-- One step of `VersionVector::merge`'s loop:
`entry(d).or_insert(0); *current = current.max(version)`, inserting at
the sorted position to keep the representation canonical. -/
def VersionVector.insertMax : VersionVector → Nat × Nat → VersionVector
  | [], q => [q]
  | p :: rest, q =>
    if q.1 < p.1 then q :: p :: rest
    else if p.1 = q.1 then (p.1, max p.2 q.2) :: rest
    else p :: VersionVector.insertMax rest q

/-- `VersionVector::merge` — componentwise maximum: the source loops
over `other`'s entries folding each into `self`. -/
def VersionVector.merge (a b : VersionVector) : VersionVector :=
  b.foldl VersionVector.insertMax a

/-- `VersionVector::happens_before` — the two loops of the source: return
`false` as soon as one of `self`'s counters exceeds `other`'s, otherwise
report whether strictness was witnessed in `self`'s entries or by a key
of `other` that is missing from `self` with a positive counter. -/
def VersionVector.happens_before (a b : VersionVector) : Bool :=
  a.all (fun p => p.2 ≤ b.get p.1) &&
    (a.any (fun p => p.2 < b.get p.1) ||
      b.any (fun q => !a.hasKey q.1 && 0 < q.2))

/-- `VersionVector::is_concurrent` — `!hb(a,b) && !hb(b,a) && a != b`,
where `!=` is Rust `HashMap` inequality, i.e. inequality of canonical
representations. -/
def VersionVector.is_concurrent (a b : VersionVector) : Bool :=
  !a.happens_before b && !b.happens_before a && !(a == b)

/-- All explicit counters positive: every vector reachable through
`new`/`increment`/`merge` satisfies this (increment produces counters
`≥ 1` and merge takes maxima), so it characterises the reachable states. -/
def VersionVector.Positive (v : VersionVector) : Prop :=
  ∀ p ∈ v, 1 ≤ p.2

instance (v : VersionVector) : Decidable v.Positive :=
  List.decidableBAll _ v

theorem VersionVector.get_nil (d : Nat) : VersionVector.get [] d = 0 := rfl

theorem VersionVector.get_cons (p : Nat × Nat) (rest : VersionVector) (d : Nat) :
    VersionVector.get (p :: rest) d = if p.1 = d then p.2 else rest.get d := rfl

theorem VersionVector.get_of_not_hasKey {v : VersionVector} {d : Nat}
    (h : v.hasKey d = false) : v.get d = 0 := by
  induction v with
  | nil => rfl
  | cons p rest ih =>
    unfold VersionVector.hasKey at h ih
    simp only [List.any_cons, Bool.or_eq_false_iff, beq_iff_eq] at h
    rw [VersionVector.get_cons]
    rw [if_neg (by simpa using h.1), ih (by simpa using h.2)]

theorem VersionVector.hasKey_iff {v : VersionVector} {d : Nat} :
    v.hasKey d = true ↔ ∃ w, (d, w) ∈ v := by
  unfold VersionVector.hasKey
  simp only [List.any_eq_true, beq_iff_eq]
  constructor
  · rintro ⟨p, hp, hpd⟩
    exact ⟨p.2, by simpa [← hpd] using hp⟩
  · rintro ⟨w, hw⟩
    exact ⟨(d, w), hw, rfl⟩

theorem VersionVector.get_of_mem {v : VersionVector} (hv : v.WF)
    {p : Nat × Nat} (hp : p ∈ v) : v.get p.1 = p.2 := by
  induction v with
  | nil => cases hp
  | cons q rest ih =>
    rw [List.mem_cons] at hp
    rw [VersionVector.get_cons]
    rcases hp with rfl | hp
    · rw [if_pos rfl]
    · have hlt : q.1 < p.1 := (List.pairwise_cons.mp hv).1 p hp
      rw [if_neg (Nat.ne_of_lt hlt), ih (List.pairwise_cons.mp hv).2 hp]

theorem VersionVector.get_of_keys_gt {v : VersionVector} {k : Nat}
    (h : ∀ p ∈ v, k < p.1) : v.get k = 0 := by
  induction v with
  | nil => rfl
  | cons q rest ih =>
    rw [VersionVector.get_cons]
    rw [if_neg (fun he : q.1 = k => Nat.lt_irrefl k (he ▸ h q (List.mem_cons_self q rest)))]
    exact ih (fun p hp => h p (List.mem_cons_of_mem q hp))

theorem VersionVector.hasKey_of_get_pos {v : VersionVector} {d : Nat}
    (h : 0 < v.get d) : v.hasKey d = true := by
  cases hk : v.hasKey d with
  | true => rfl
  | false => rw [VersionVector.get_of_not_hasKey hk] at h; cases h

theorem VersionVector.mem_of_get_pos {v : VersionVector} (hv : v.WF) {d : Nat}
    (h : 0 < v.get d) : (d, v.get d) ∈ v := by
  obtain ⟨w, hw⟩ := VersionVector.hasKey_iff.mp (VersionVector.hasKey_of_get_pos h)
  have := VersionVector.get_of_mem hv hw
  simp only at this
  rw [this]
  exact hw

/-- Semantics of `happens_before` on well-formed vectors: the loops of the
source compute exactly the pointwise-`≤` test with a strict witness. -/
theorem VersionVector.happens_before_iff {a b : VersionVector}
    (ha : a.WF) (hb : b.WF) :
    a.happens_before b = true ↔
      (∀ d, a.get d ≤ b.get d) ∧ (∃ d, a.get d < b.get d) := by
  unfold VersionVector.happens_before
  simp only [Bool.and_eq_true, Bool.or_eq_true, List.all_eq_true, List.any_eq_true,
    Bool.and_eq_true, Bool.not_eq_true', decide_eq_true_eq]
  constructor
  · rintro ⟨hall, hany⟩
    refine ⟨?_, ?_⟩
    · intro d
      cases hk : a.hasKey d with
      | false => rw [VersionVector.get_of_not_hasKey hk]; exact Nat.zero_le _
      | true =>
        obtain ⟨w, hw⟩ := VersionVector.hasKey_iff.mp hk
        rw [VersionVector.get_of_mem ha hw]
        exact hall _ hw
    · rcases hany with ⟨p, hp, hlt⟩ | ⟨q, hq, hqa, hqpos⟩
      · exact ⟨p.1, by rw [VersionVector.get_of_mem ha hp]; exact hlt⟩
      · refine ⟨q.1, ?_⟩
        rw [VersionVector.get_of_not_hasKey hqa, VersionVector.get_of_mem hb hq]
        exact hqpos
  · rintro ⟨hle, d, hd⟩
    refine ⟨fun p hp => ?_, ?_⟩
    · have := hle p.1
      rw [VersionVector.get_of_mem ha hp] at this
      exact this
    · cases hk : a.hasKey d with
      | true =>
        obtain ⟨w, hw⟩ := VersionVector.hasKey_iff.mp hk
        refine Or.inl ⟨(d, w), hw, ?_⟩
        have := VersionVector.get_of_mem ha hw
        simp only at this
        rw [← this]
        exact hd
      | false =>
        have ha0 : a.get d = 0 := VersionVector.get_of_not_hasKey hk
        have hbpos : 0 < b.get d := by omega
        refine Or.inr ⟨(d, b.get d), VersionVector.mem_of_get_pos hb hbpos, ?_, hbpos⟩
        simpa using hk

/-- On well-formed vectors with positive counters, the lookup function
determines the representation: this is the sense in which Rust `HashMap`
equality coincides with extensional (missing-key-is-zero) equality for
every state the version-vector operations can build. -/
theorem VersionVector.ext_get : ∀ (a b : VersionVector), a.WF → b.WF →
    a.Positive → b.Positive → (∀ d, a.get d = b.get d) → a = b := by
  intro a
  induction a with
  | nil =>
    intro b _ hbw _ hbp hext
    cases b with
    | nil => rfl
    | cons q b' =>
      have h1 : VersionVector.get (q :: b') q.1 = q.2 :=
        VersionVector.get_of_mem hbw (List.mem_cons_self q b')
      have h2 := hext q.1
      rw [VersionVector.get_nil, h1] at h2
      have := hbp q (List.mem_cons_self q b')
      omega
  | cons p a' ih =>
    intro b haw hbw hap hbp hext
    cases b with
    | nil =>
      have h1 : VersionVector.get (p :: a') p.1 = p.2 :=
        VersionVector.get_of_mem haw (List.mem_cons_self p a')
      have h2 := hext p.1
      rw [VersionVector.get_nil, h1] at h2
      have := hap p (List.mem_cons_self p a')
      omega
    | cons q b' =>
      have hpa : VersionVector.get (p :: a') p.1 = p.2 :=
        VersionVector.get_of_mem haw (List.mem_cons_self p a')
      have hqb : VersionVector.get (q :: b') q.1 = q.2 :=
        VersionVector.get_of_mem hbw (List.mem_cons_self q b')
      rcases Nat.lt_trichotomy p.1 q.1 with hlt | heq | hgt
      · exfalso
        have hz : VersionVector.get (q :: b') p.1 = 0 := by
          refine VersionVector.get_of_keys_gt (fun r hr => ?_)
          rcases List.mem_cons.mp hr with rfl | hr
          · exact hlt
          · exact Nat.lt_trans hlt ((List.pairwise_cons.mp hbw).1 r hr)
        have h2 := hext p.1
        rw [hpa, hz] at h2
        have := hap p (List.mem_cons_self p a')
        omega
      · have hv : p.2 = q.2 := by
          have h2 := hext p.1
          rw [hpa, heq, hqb] at h2
          exact h2
        have htail : a' = b' := by
          refine ih b' (List.pairwise_cons.mp haw).2 (List.pairwise_cons.mp hbw).2
            (fun r hr => hap r (List.mem_cons_of_mem p hr))
            (fun r hr => hbp r (List.mem_cons_of_mem q hr)) (fun d => ?_)
          by_cases hd : d = p.1
          · subst hd
            rw [VersionVector.get_of_keys_gt
                (fun r hr => (List.pairwise_cons.mp haw).1 r hr),
              VersionVector.get_of_keys_gt
                (fun r hr => heq ▸ (List.pairwise_cons.mp hbw).1 r hr)]
          · have h2 := hext d
            rw [VersionVector.get_cons, VersionVector.get_cons,
              if_neg (fun h => hd h.symm),
              if_neg (fun h => hd (heq ▸ h.symm))] at h2
            exact h2
        have hpq : p = q := Prod.ext heq hv
        rw [hpq, htail]
      · exfalso
        have hz : VersionVector.get (p :: a') q.1 = 0 := by
          refine VersionVector.get_of_keys_gt (fun r hr => ?_)
          rcases List.mem_cons.mp hr with rfl | hr
          · exact hgt
          · exact Nat.lt_trans hgt ((List.pairwise_cons.mp haw).1 r hr)
        have h2 := hext q.1
        rw [hz, hqb] at h2
        have := hbp q (List.mem_cons_self q b')
        omega

/-- Number of the four relations (`equal`, `a→b`, `b→a`, `concurrent`)
that hold of a pair of vectors; the trichotomy claim says it is `1`. -/
def relationCount (a b : VersionVector) : Nat :=
  (if a = b then 1 else 0) + (if a.happens_before b = true then 1 else 0) +
    (if b.happens_before a = true then 1 else 0) +
    (if a.is_concurrent b = true then 1 else 0)

/-- C5 (amended): for well-formed version vectors whose stored counters
are all positive — which is every state reachable through
`new`/`increment`/`merge` — exactly one of the four relations holds, and
on such vectors the convention "missing key ≡ counter 0" equality
coincides with the structural equality the code tests. The original
claim fails for vectors carrying an explicit zero counter (see the
counterexample): there the code reports `concurrent` although the
convention makes the vectors equal. -/
theorem C5_vv_trichotomy_amended (a b : VersionVector)
    (haw : a.WF) (hap : a.Positive) (hbw : b.WF) (hbp : b.Positive) :
    relationCount a b = 1 ∧ ((∀ d, a.get d = b.get d) ↔ a = b) := by
  have hext : (∀ d, a.get d = b.get d) ↔ a = b := by
    constructor
    · exact fun h => VersionVector.ext_get a b haw hbw hap hbp h
    · rintro rfl d; rfl
  refine ⟨?_, hext⟩
  by_cases heq : a = b
  · subst heq
    have hb1 : a.happens_before a = false := by
      rw [Bool.eq_false_iff]
      intro h
      obtain ⟨-, d, hd⟩ := (VersionVector.happens_before_iff haw haw).mp h
      omega
    have hc : a.is_concurrent a = false := by
      rw [VersionVector.is_concurrent, hb1]
      simp
    simp [relationCount, hb1, hc]
  · have hboth : ¬(a.happens_before b = true ∧ b.happens_before a = true) := by
      rintro ⟨h1, h2⟩
      obtain ⟨hle1, d, hd⟩ := (VersionVector.happens_before_iff haw hbw).mp h1
      obtain ⟨hle2, -⟩ := (VersionVector.happens_before_iff hbw haw).mp h2
      exact absurd (hle2 d) (by omega)
    by_cases h1 : a.happens_before b = true
    · have h2 : b.happens_before a = false :=
        Bool.eq_false_iff.mpr (fun h2 => hboth ⟨h1, h2⟩)
      have hc : a.is_concurrent b = false := by
        rw [VersionVector.is_concurrent, h1]
        simp
      simp [relationCount, heq, h1, h2, hc]
    · have h1' : a.happens_before b = false := Bool.eq_false_iff.mpr h1
      by_cases h2 : b.happens_before a = true
      · have hc : a.is_concurrent b = false := by
          rw [VersionVector.is_concurrent, h2]
          simp
        simp [relationCount, heq, h1', h2, hc]
      · have h2' : b.happens_before a = false := Bool.eq_false_iff.mpr h2
        have hbeq : (a == b) = false := by
          simpa using heq
        have hc : a.is_concurrent b = true := by
          rw [VersionVector.is_concurrent, h1', h2', hbeq]
          simp
        simp [relationCount, heq, h1', h2', hc]

/-- Witness for C5: a concrete concurrent pair of reachable vectors. -/
theorem C5_vv_trichotomy_witness :
    VersionVector.WF [(0, 2)] ∧ VersionVector.Positive [(0, 2)] ∧
      VersionVector.WF [(0, 1), (1, 1)] ∧
      VersionVector.Positive [(0, 1), (1, 1)] ∧
      relationCount [(0, 2)] [(0, 1), (1, 1)] = 1 :=
  ⟨by decide, by decide, by decide, by decide,
    (C5_vv_trichotomy_amended [(0, 2)] [(0, 1), (1, 1)]
      (by decide) (by decide) (by decide) (by decide)).1⟩

/-- Counterexample to C5 as stated: the empty vector against the vector
with the single explicit entry `0 ↦ 0`. Under the claim's convention the
two are equal (they agree on key `0`, and neither holds any further key),
yet `is_concurrent` reports `true` because the code compares `HashMap`s
structurally — so "equal" and "concurrent" hold simultaneously and the
four relations are not mutually exclusive as claimed. -/
theorem C5_vv_zero_counter_counterexample :
    VersionVector.is_concurrent [] [(0, 0)] = true ∧
      VersionVector.get [] 0 = VersionVector.get [(0, 0)] 0 ∧
      VersionVector.hasKey [] 0 = false ∧
      VersionVector.hasKey [(0, 0)] 0 = true ∧
      VersionVector.hasKey [(0, 0)] 1 = false := by
  decide

/-! ## LWW register (`hedtronix-core/src/crdt/lww_register.rs`)

`LWWRegister<T>` is embedded at `T = Nat`; `Utc::now()` is the `now`
oracle argument of `new`/`set`. -/

/-- The register triple `(value, timestamp, device_id)`. -/
structure LWWRegister where
  value : Nat
  timestamp : Nat
  device_id : Nat
deriving DecidableEq

/-- `LWWRegister::new(value, device_id)` at clock reading `now`. -/
def LWWRegister.new (value device_id now : Nat) : LWWRegister :=
  { value := value, timestamp := now, device_id := device_id }

/-- `LWWRegister::set` — overwrite with a fresh timestamp. -/
def LWWRegister.set (_r : LWWRegister) (value device_id now : Nat) : LWWRegister :=
  { value := value, timestamp := now, device_id := device_id }

/-- `LWWRegister::merge` — larger timestamp wins; on a timestamp tie the
larger device id wins, copying value and device id onto `self`. -/
def LWWRegister.merge (s o : LWWRegister) : LWWRegister :=
  if o.timestamp > s.timestamp then o
  else if o.timestamp = s.timestamp then
    (if o.device_id > s.device_id then
      { s with value := o.value, device_id := o.device_id }
    else s)
  else s

/-- The strict order merge decides by: lexicographic on
`(timestamp, device_id)`. -/
def lwwLt (s o : LWWRegister) : Prop :=
  s.timestamp < o.timestamp ∨ (s.timestamp = o.timestamp ∧ s.device_id < o.device_id)

instance (s o : LWWRegister) : Decidable (lwwLt s o) := by
  unfold lwwLt
  infer_instance

/-- `merge` keeps the argument that is larger in the `(timestamp,
device_id)` order, preferring `self` when both coordinates tie. -/
theorem LWWRegister.merge_eq_ite (s o : LWWRegister) :
    s.merge o = if lwwLt s o then o else s := by
  cases s with
  | mk sv st sd =>
    cases o with
    | mk ov ot od =>
      simp only [LWWRegister.merge, lwwLt]
      split_ifs <;> simp_all <;> omega

/-- Writes from different moments or devices merge commutatively; on a
full `(timestamp, device_id)` tie commutativity needs the values to
agree (`lwwCompat`), and fails otherwise (see the C4 counterexample). -/
def lwwCompat (a b : LWWRegister) : Prop :=
  a.timestamp = b.timestamp → a.device_id = b.device_id → a = b

instance (a b : LWWRegister) : Decidable (lwwCompat a b) := by
  unfold lwwCompat
  infer_instance

theorem lww_merge_comm (a b : LWWRegister) (h : lwwCompat a b) :
    a.merge b = b.merge a := by
  rw [LWWRegister.merge_eq_ite, LWWRegister.merge_eq_ite]
  by_cases h1 : lwwLt a b
  · rw [if_pos h1, if_neg (by unfold lwwLt at *; omega)]
  · by_cases h2 : lwwLt b a
    · rw [if_neg h1, if_pos h2]
    · rw [if_neg h1, if_neg h2]
      unfold lwwLt at h1 h2
      exact h (by omega) (by omega)

theorem lww_merge_assoc (a b c : LWWRegister) :
    (a.merge b).merge c = a.merge (b.merge c) := by
  simp only [LWWRegister.merge_eq_ite]
  split_ifs <;> first
    | rfl
    | (exfalso; unfold lwwLt at *; omega)

theorem lww_merge_idem (a : LWWRegister) : a.merge a = a := by
  rw [LWWRegister.merge_eq_ite, if_neg (by unfold lwwLt; omega)]

/-! ## MV register (`hedtronix-core/src/crdt/mv_register.rs`)

`MVRegister<T> { values: HashSet<VersionedValue<T>> }` at `T = Nat`: a
`HashSet` compares as a set, so it is embedded as a `Finset`. -/

/-- `VersionedValue<T>` — one concurrent write. -/
structure VersionedValue where
  value : Nat
  timestamp : Nat
  device_id : Nat
deriving DecidableEq

/-- `MVRegister` is its set of versioned values. -/
abbrev MVRegister := Finset VersionedValue

/-- `MVRegister::new(value, device_id)` at clock reading `now`. -/
def MVRegister.new (value device_id now : Nat) : MVRegister :=
  {⟨value, now, device_id⟩}

/-- `MVRegister::empty()`. -/
def MVRegister.emptyReg : MVRegister := ∅

/-- `MVRegister::set` — clear, then insert the singleton write. -/
def MVRegister.set (_r : MVRegister) (value device_id now : Nat) : MVRegister :=
  {⟨value, now, device_id⟩}

/-- `MVRegister::merge` — find the maximum timestamp over both value
sets; if there is one (the union is nonempty), keep exactly the values
carrying it, else leave `self` unchanged. -/
def MVRegister.merge (a b : MVRegister) : MVRegister :=
  if a ∪ b = ∅ then a
  else (a ∪ b).filter (fun v => v.timestamp = (a ∪ b).sup VersionedValue.timestamp)

/-- `has_conflict` — more than one surviving concurrent value. -/
def MVRegister.has_conflict (a : MVRegister) : Bool :=
  1 < a.card

/-- `merge` unconditionally equals the max-timestamp filter of the
union (when the union is empty both descriptions give `∅`). -/
theorem MVRegister.merge_eq_filter (a b : MVRegister) :
    a.merge b =
      (a ∪ b).filter (fun v => v.timestamp = (a ∪ b).sup VersionedValue.timestamp) := by
  unfold MVRegister.merge
  by_cases h : a ∪ b = ∅
  · rw [if_pos h, h, Finset.filter_empty]
    exact (Finset.union_eq_empty.mp h).1
  · rw [if_neg h]

/-- The sup of the surviving values equals the sup of the whole set. -/
theorem MVRegister.sup_filter_max (s : Finset VersionedValue) :
    (s.filter (fun v => v.timestamp = s.sup VersionedValue.timestamp)).sup
        VersionedValue.timestamp = s.sup VersionedValue.timestamp := by
  rcases s.eq_empty_or_nonempty with rfl | hne
  · simp
  · obtain ⟨v, hv, hveq⟩ := Finset.exists_mem_eq_sup s hne VersionedValue.timestamp
    refine le_antisymm (Finset.sup_mono (Finset.filter_subset _ s)) ?_
    have hvmem : v ∈ s.filter (fun w => w.timestamp = s.sup VersionedValue.timestamp) :=
      Finset.mem_filter.mpr ⟨hv, hveq.symm⟩
    calc s.sup VersionedValue.timestamp = v.timestamp := hveq
    _ ≤ _ := Finset.le_sup hvmem

/-- Filtering to the max of the left part first does not change the
overall max-filter. -/
theorem MVRegister.filter_max_union_left (s t : Finset VersionedValue) :
    ((s.filter (fun v => v.timestamp = s.sup VersionedValue.timestamp)) ∪ t).filter
        (fun v => v.timestamp =
          ((s.filter (fun w => w.timestamp = s.sup VersionedValue.timestamp)) ∪ t).sup
            VersionedValue.timestamp) =
      (s ∪ t).filter (fun v => v.timestamp = (s ∪ t).sup VersionedValue.timestamp) := by
  have hsup :
      ((s.filter (fun w => w.timestamp = s.sup VersionedValue.timestamp)) ∪ t).sup
          VersionedValue.timestamp = (s ∪ t).sup VersionedValue.timestamp := by
    rw [Finset.sup_union, Finset.sup_union, MVRegister.sup_filter_max]
  rw [hsup]
  ext v
  simp only [Finset.mem_filter, Finset.mem_union]
  constructor
  · rintro ⟨⟨hvs, -⟩ | hvt, hts⟩
    · exact ⟨Or.inl hvs, hts⟩
    · exact ⟨Or.inr hvt, hts⟩
  · rintro ⟨hv | hvt, hts⟩
    · refine ⟨Or.inl ⟨hv, ?_⟩, hts⟩
      have h1 : v.timestamp ≤ s.sup VersionedValue.timestamp := Finset.le_sup hv
      have h2 : s.sup VersionedValue.timestamp ≤ (s ∪ t).sup VersionedValue.timestamp := by
        rw [Finset.sup_union]
        exact le_sup_left
      omega
    · exact ⟨Or.inr hvt, hts⟩

theorem mv_merge_comm (a b : MVRegister) : a.merge b = b.merge a := by
  rw [MVRegister.merge_eq_filter, MVRegister.merge_eq_filter, Finset.union_comm]

theorem mv_merge_assoc (a b c : MVRegister) :
    (a.merge b).merge c = a.merge (b.merge c) := by
  rw [MVRegister.merge_eq_filter a b, MVRegister.merge_eq_filter,
    MVRegister.merge_eq_filter b c, MVRegister.merge_eq_filter,
    MVRegister.filter_max_union_left (a ∪ b) c]
  have hcomm :
      a ∪ (b ∪ c).filter
          (fun v => v.timestamp = (b ∪ c).sup VersionedValue.timestamp) =
        (b ∪ c).filter
          (fun v => v.timestamp = (b ∪ c).sup VersionedValue.timestamp) ∪ a :=
    Finset.union_comm _ _
  rw [hcomm, MVRegister.filter_max_union_left (b ∪ c) a,
    Finset.union_comm (b ∪ c) a, Finset.union_assoc]

/-- All stored writes of an MV register share one timestamp: true of
every state reachable through `new`/`empty`/`set`/`merge` (`new`/`set`
build singletons and `merge` keeps only maximal-timestamp values). -/
def mvUniform (a : MVRegister) : Prop :=
  ∀ v ∈ a, ∀ w ∈ a, v.timestamp = w.timestamp

instance (a : MVRegister) : Decidable (mvUniform a) := by
  unfold mvUniform
  infer_instance

theorem mv_merge_idem (a : MVRegister) (h : mvUniform a) : a.merge a = a := by
  rw [MVRegister.merge_eq_filter, Finset.union_self]
  ext v
  simp only [Finset.mem_filter]
  constructor
  · exact fun hv => hv.1
  · intro hv
    refine ⟨hv, le_antisymm (Finset.le_sup hv) (Finset.sup_le fun w hw => ?_)⟩
    exact le_of_eq (h w hw v hv)

/-! ## OR-list (`hedtronix-core/src/crdt/crdt_list.rs`)

`CRDTList<T> { elements: HashMap<Uuid, ListElement<T>> }` at `T = Nat`.
Each stored element carries its own id, which is also its map key; the
map is embedded as the list of elements in iteration order, with the
key-uniqueness invariant `keysNodup`, and `HashMap` equality is
expressed through `listFind` (lookup) extensionality. -/

/-- `ListElement<T>` — value plus LWW metadata and tombstone flag. -/
structure ListElement where
  id : Nat
  value : Nat
  timestamp : Nat
  device_id : Nat
  deleted : Bool
deriving DecidableEq

/-- The elements of the `HashMap` in iteration order. -/
abbrev CRDTList := List ListElement

/-- `CRDTList::new()`. -/
def CRDTList.newList : CRDTList := []

/-- Key-uniqueness of the embedded `HashMap`. -/
def keysNodup (l : CRDTList) : Prop :=
  (l.map ListElement.id).Nodup

instance (l : CRDTList) : Decidable (keysNodup l) := by
  unfold keysNodup
  infer_instance

/-- `elements.get(id)` — lookup by element id. -/
def listFind (l : CRDTList) (k : Nat) : Option ListElement :=
  l.find? (fun e => e.id == k)

/-- `CRDTList::add` — insert a fresh element (fresh `Uuid` and clock
reading passed as oracles). -/
def CRDTList.add (l : CRDTList) (value device_id freshId now : Nat) : CRDTList :=
  l ++ [{ id := freshId, value := value, timestamp := now,
          device_id := device_id, deleted := false }]

/-- `CRDTList::remove` — soft delete with a fresh timestamp; `false` if
absent or already deleted. The returned pair is (new state, result). -/
def CRDTList.remove (l : CRDTList) (k device_id now : Nat) : CRDTList × Bool :=
  match listFind l k with
  | some e =>
    if e.deleted then (l, false)
    else
      (l.map (fun s => if s.id == k then
        { s with deleted := true, timestamp := now, device_id := device_id }
       else s), true)
  | none => (l, false)

/-- `CRDTList::update` — replace the value with a fresh timestamp;
`false` if absent or deleted. -/
def CRDTList.update (l : CRDTList) (k value device_id now : Nat) : CRDTList × Bool :=
  match listFind l k with
  | some e =>
    if e.deleted then (l, false)
    else
      (l.map (fun s => if s.id == k then
        { s with value := value, timestamp := now, device_id := device_id }
       else s), true)
  | none => (l, false)

/-- The per-element decision of `CRDTList::merge`: the later timestamp
wins and on a tie the larger device id wins, otherwise `self`'s copy is
kept. -/
def elemCombine (s o : ListElement) : ListElement :=
  if o.timestamp > s.timestamp then o
  else if o.timestamp = s.timestamp then
    (if o.device_id > s.device_id then o else s)
  else s

/-- One iteration of the `CRDTList::merge` loop: element `o` of `other`
is combined into the accumulator map. -/
def mergeOne (a : CRDTList) (o : ListElement) : CRDTList :=
  if a.any (fun e => e.id == o.id) then
    a.map (fun s => if s.id == o.id then elemCombine s o else s)
  else a ++ [o]

/-- `CRDTList::merge` — fold the loop over `other`'s elements. -/
def CRDTList.merge (a b : CRDTList) : CRDTList :=
  b.foldl mergeOne a

/-- `CRDTList::get_active` — the non-deleted elements, in map iteration
order (the source applies no sorting). -/
def CRDTList.get_active (l : CRDTList) : CRDTList :=
  l.filter (fun e => !e.deleted)

/-- `CRDTList::len` — number of active elements. -/
def CRDTList.lenActive (l : CRDTList) : Nat :=
  (l.filter (fun e => !e.deleted)).length

/-- The strict `(timestamp, device_id)` order `elemCombine` decides by. -/
def elemLt (s o : ListElement) : Prop :=
  s.timestamp < o.timestamp ∨ (s.timestamp = o.timestamp ∧ s.device_id < o.device_id)

instance (s o : ListElement) : Decidable (elemLt s o) := by
  unfold elemLt
  infer_instance

theorem elemCombine_eq_ite (s o : ListElement) :
    elemCombine s o = if elemLt s o then o else s := by
  simp only [elemCombine, elemLt]
  split_ifs <;> first
    | rfl
    | (exfalso; omega)

theorem elemCombine_id (s o : ListElement) (h : s.id = o.id) :
    (elemCombine s o).id = s.id := by
  rw [elemCombine_eq_ite]
  split_ifs <;> simp [h]

theorem elemCombine_assoc (s o p : ListElement) :
    elemCombine (elemCombine s o) p = elemCombine s (elemCombine o p) := by
  simp only [elemCombine_eq_ite]
  split_ifs <;> first
    | rfl
    | (exfalso; unfold elemLt at *; omega)

theorem elemCombine_idem (s : ListElement) : elemCombine s s = s := by
  rw [elemCombine_eq_ite, if_neg (by unfold elemLt; omega)]

theorem listFind_mergeOne (a : CRDTList) (o : ListElement) (k : Nat) :
    listFind (mergeOne a o) k =
      if k = o.id then
        (match listFind a o.id with
          | some s => some (elemCombine s o)
          | none => some o)
      else listFind a k := by
  unfold mergeOne
  by_cases hany : a.any (fun e => e.id == o.id) = true
  · rw [if_pos hany]
    unfold listFind
    rw [List.find?_map]
    have hpred : ((fun e : ListElement => e.id == k) ∘
        (fun s => if s.id == o.id then elemCombine s o else s)) =
          (fun s : ListElement => s.id == k) := by
      funext s
      by_cases hs : s.id = o.id
      · simp [Function.comp_apply, hs, elemCombine_id s o hs]
      · simp [Function.comp_apply, hs]
    rw [hpred]
    by_cases hk : k = o.id
    · subst hk
      rw [if_pos rfl]
      cases hfind : a.find? (fun s : ListElement => s.id == o.id) with
      | none =>
        exfalso
        rw [List.find?_eq_none] at hfind
        rw [List.any_eq_true] at hany
        obtain ⟨e, he, heid⟩ := hany
        exact hfind e he heid
      | some s =>
        have hs := List.find?_some hfind
        simp only [beq_iff_eq] at hs
        simp [listFind, hfind, hs]
    · rw [if_neg hk]
      cases hfind : a.find? (fun s : ListElement => s.id == k) with
      | none => simp [listFind, hfind]
      | some s =>
        have hs := List.find?_some hfind
        simp only [beq_iff_eq] at hs
        have hso : (s.id == o.id) = false := by
          rw [beq_eq_false_iff_ne, hs]
          exact hk
        simp [listFind, hfind, hso]
        intro h
        exact absurd h (beq_eq_false_iff_ne.mp hso)
  · rw [if_neg hany]
    unfold listFind
    rw [List.find?_append]
    have hnone : ∀ e ∈ a, ¬(e.id == o.id) = true := by
      simpa [List.any_eq_true] using hany
    by_cases hk : k = o.id
    · subst hk
      have hfn : a.find? (fun e : ListElement => e.id == o.id) = none :=
        List.find?_eq_none.mpr hnone
      rw [if_pos rfl]
      simp [listFind, hfn]
    · rw [if_neg hk]
      have hko : (o.id == k) = false := by
        rw [beq_eq_false_iff_ne]
        exact fun h => hk h.symm
      simp [listFind, hko]

theorem listFind_merge (a b : CRDTList) (hb : keysNodup b) (k : Nat) :
    listFind (CRDTList.merge a b) k =
      match listFind a k, listFind b k with
      | some s, some o => some (elemCombine s o)
      | some s, none => some s
      | none, some o => some o
      | none, none => none := by
  induction b generalizing a with
  | nil =>
    have hid : CRDTList.merge a [] = a := rfl
    rw [hid]
    cases hfa : listFind a k <;> rfl
  | cons o b' ih =>
    have hmerge : CRDTList.merge a (o :: b') = CRDTList.merge (mergeOne a o) b' := rfl
    have hb' : keysNodup b' := by
      unfold keysNodup at hb ⊢
      exact (List.nodup_cons.mp (by simpa using hb)).2
    have hnotmem : o.id ∉ b'.map ListElement.id :=
      (List.nodup_cons.mp (by simpa [keysNodup] using hb)).1
    rw [hmerge, ih (mergeOne a o) hb', listFind_mergeOne]
    by_cases hk : k = o.id
    · subst hk
      have hfb' : listFind b' o.id = none := by
        refine List.find?_eq_none.mpr (fun e he => ?_)
        intro heq
        rw [beq_iff_eq] at heq
        exact hnotmem (heq ▸ List.mem_map_of_mem ListElement.id he)
      have hfoo : listFind (o :: b') o.id = some o := by
        unfold listFind
        rw [List.find?_cons_of_pos _ (by simp)]
      rw [if_pos rfl, hfb', hfoo]
      cases hfa : listFind a o.id <;> simp
    · have hfob : listFind (o :: b') k = listFind b' k := by
        unfold listFind
        rw [List.find?_cons_of_neg _ (by simp; exact fun h => hk h.symm)]
      rw [if_neg hk, hfob]

/-- `HashMap` ("structural") equality of two embedded CRDT lists:
the same id maps to the same element on both sides. -/
def listExtEq (a b : CRDTList) : Prop :=
  ∀ k, listFind a k = listFind b k

theorem elemCombine_comm (s o : ListElement)
    (h : s.timestamp = o.timestamp → s.device_id = o.device_id → s = o) :
    elemCombine s o = elemCombine o s := by
  rw [elemCombine_eq_ite, elemCombine_eq_ite]
  by_cases h1 : elemLt s o
  · rw [if_pos h1, if_neg (by unfold elemLt at *; omega)]
  · by_cases h2 : elemLt o s
    · rw [if_neg h1, if_pos h2]
    · rw [if_neg h1, if_neg h2]
      unfold elemLt at h1 h2
      exact h (by omega) (by omega)

/-- No conflicting write pair between two list states: elements stored
under the same id with equal timestamp and device id must be identical. -/
def listCompat (a b : CRDTList) : Prop :=
  ∀ s ∈ a, ∀ o ∈ b, s.id = o.id → s.timestamp = o.timestamp →
    s.device_id = o.device_id → s = o

instance (a b : CRDTList) : Decidable (listCompat a b) := by
  unfold listCompat
  infer_instance

theorem keysNodup_mergeOne (a : CRDTList) (o : ListElement)
    (ha : keysNodup a) : keysNodup (mergeOne a o) := by
  unfold mergeOne
  by_cases hany : a.any (fun e => e.id == o.id) = true
  · rw [if_pos hany]
    unfold keysNodup at ha ⊢
    have hids : (a.map (fun s => if s.id == o.id then elemCombine s o else s)).map
        ListElement.id = a.map ListElement.id := by
      rw [List.map_map]
      refine List.map_congr_left (fun s _ => ?_)
      by_cases hs : s.id = o.id
      · simp [Function.comp_apply, hs, elemCombine_id s o hs]
      · simp [Function.comp_apply, hs]
    rw [hids]
    exact ha
  · rw [if_neg hany]
    unfold keysNodup at ha ⊢
    rw [List.map_append]
    rw [List.nodup_append]
    refine ⟨ha, List.nodup_singleton o.id, ?_⟩
    intro x hx
    simp only [List.mem_map] at hx
    obtain ⟨e, he, rfl⟩ := hx
    intro hmem
    simp only [List.map_cons, List.map_nil, List.mem_singleton] at hmem
    apply hany
    rw [List.any_eq_true]
    exact ⟨e, he, by simpa using hmem⟩

theorem keysNodup_merge (a b : CRDTList) (ha : keysNodup a) :
    keysNodup (CRDTList.merge a b) := by
  induction b generalizing a with
  | nil => exact ha
  | cons o b' ih => exact ih (mergeOne a o) (keysNodup_mergeOne a o ha)

theorem list_merge_comm (a b : CRDTList) (ha : keysNodup a) (hb : keysNodup b)
    (hcompat : listCompat a b) :
    listExtEq (CRDTList.merge a b) (CRDTList.merge b a) := by
  intro k
  rw [listFind_merge a b hb k, listFind_merge b a ha k]
  cases hfa : listFind a k with
  | none => cases hfb : listFind b k <;> rfl
  | some s =>
    cases hfb : listFind b k with
    | none => rfl
    | some o =>
      have hsmem : s ∈ a := List.mem_of_find?_eq_some hfa
      have homem : o ∈ b := List.mem_of_find?_eq_some hfb
      have hsid : s.id = k := by simpa using List.find?_some hfa
      have hoid : o.id = k := by simpa using List.find?_some hfb
      have hco := elemCombine_comm s o
        (hcompat s hsmem o homem (hsid.trans hoid.symm))
      simp only [hco]

theorem list_merge_assoc (a b c : CRDTList) (hb : keysNodup b)
    (hc : keysNodup c) :
    listExtEq (CRDTList.merge (CRDTList.merge a b) c)
      (CRDTList.merge a (CRDTList.merge b c)) := by
  intro k
  rw [listFind_merge _ c hc k, listFind_merge a b hb k,
    listFind_merge a _ (keysNodup_merge b c hb) k, listFind_merge b c hc k]
  cases hfa : listFind a k <;> cases hfb : listFind b k <;>
    cases hfc : listFind c k <;> simp [elemCombine_assoc]

theorem list_merge_idem (a : CRDTList) (ha : keysNodup a) :
    listExtEq (CRDTList.merge a a) a := by
  intro k
  rw [listFind_merge a a ha k]
  cases hfa : listFind a k <;> simp [elemCombine_idem]

/-- C4 (amended): merge of each CRDT primitive is associative and
idempotent, and commutative under the stated provisos: for LWW registers
the two states must not be conflicting writes (equal timestamp and device
id but different content, `lwwCompat`); for the MV register idempotence
holds on its reachable states (all stored writes share one timestamp,
`mvUniform`); for the OR-list the map states must have unique element ids
(`keysNodup`, the `HashMap` invariant) and commutativity again needs the
no-conflicting-write proviso (`listCompat`), with equality of list states
being `HashMap` (lookup) equality `listExtEq`. The unamended claim is
false: two reachable LWW states with equal `(timestamp, device_id)` but
different values merge non-commutatively (see the counterexample). -/
theorem C4_crdt_merge_algebra_amended
    (r1 r2 r3 : LWWRegister) (m1 m2 m3 : MVRegister) (l1 l2 l3 : CRDTList)
    (hr : lwwCompat r1 r2) (hm : mvUniform m1)
    (hl1 : keysNodup l1) (hl2 : keysNodup l2) (hl3 : keysNodup l3)
    (hlc : listCompat l1 l2) :
    r1.merge r2 = r2.merge r1 ∧
      (r1.merge r2).merge r3 = r1.merge (r2.merge r3) ∧
      r1.merge r1 = r1 ∧
      m1.merge m2 = m2.merge m1 ∧
      (m1.merge m2).merge m3 = m1.merge (m2.merge m3) ∧
      m1.merge m1 = m1 ∧
      listExtEq (CRDTList.merge l1 l2) (CRDTList.merge l2 l1) ∧
      listExtEq (CRDTList.merge (CRDTList.merge l1 l2) l3)
        (CRDTList.merge l1 (CRDTList.merge l2 l3)) ∧
      listExtEq (CRDTList.merge l1 l1) l1 :=
  ⟨lww_merge_comm r1 r2 hr, lww_merge_assoc r1 r2 r3, lww_merge_idem r1,
    mv_merge_comm m1 m2, mv_merge_assoc m1 m2 m3, mv_merge_idem m1 hm,
    list_merge_comm l1 l2 hl1 hl2 hlc, list_merge_assoc l1 l2 l3 hl2 hl3,
    list_merge_idem l1 hl1⟩

/-- A concrete OR-list element used in the C4 witness. -/
def elemA : ListElement := ⟨1, 10, 5, 2, false⟩

/-- A second concrete OR-list element used in the C4 witness. -/
def elemB : ListElement := ⟨2, 20, 6, 3, false⟩

/-- Witness for C4 at concrete states of the three primitives. -/
theorem C4_crdt_merge_algebra_witness :
    lwwCompat (LWWRegister.new 1 2 5) (LWWRegister.new 3 4 6) ∧
      mvUniform (MVRegister.new 1 2 5) ∧
      keysNodup [elemA] ∧ keysNodup [elemB] ∧ listCompat [elemA] [elemB] ∧
      LWWRegister.merge (LWWRegister.new 1 2 5) (LWWRegister.new 3 4 6) =
        LWWRegister.merge (LWWRegister.new 3 4 6) (LWWRegister.new 1 2 5) ∧
      MVRegister.merge (MVRegister.new 1 2 5) (MVRegister.new 1 2 5) =
        MVRegister.new 1 2 5 ∧
      listFind (CRDTList.merge [elemA] [elemB]) 1 =
        listFind (CRDTList.merge [elemB] [elemA]) 1 := by
  have h := C4_crdt_merge_algebra_amended
    (LWWRegister.new 1 2 5) (LWWRegister.new 3 4 6) (LWWRegister.new 5 6 7)
    (MVRegister.new 1 2 5) (MVRegister.new 3 4 6) (MVRegister.new 5 6 7)
    [elemA] [elemB] []
    (by decide) (by decide) (by decide) (by decide) (by decide) (by decide)
  exact ⟨by decide, by decide, by decide, by decide, by decide,
    h.1, h.2.2.2.2.2.1, h.2.2.2.2.2.2.1 1⟩

/-- Counterexample to C4 as stated: two reachable LWW register states
written at the same instant by the same device with different values
(`LWWRegister::new` can produce both, since `Utc::now` may repeat a
reading); merging keeps `self` in both orders, so merge is not
commutative on all valid states. -/
theorem C4_lww_merge_not_commutative_counterexample :
    LWWRegister.merge (LWWRegister.new 0 3 5) (LWWRegister.new 1 3 5) ≠
      LWWRegister.merge (LWWRegister.new 1 3 5) (LWWRegister.new 0 3 5) := by
  decide

/-! ## Changes and the conflict resolver
(`hedtronix-core/src/crdt/change.rs`, `hedtronix-sync/src/conflict.rs`)

`serde_json::Value` is embedded as `Json`; JSON objects are field lists
(the claims only depend on the key set, which matches `serde_json`'s map
semantics). -/

/-- `serde_json::Value`. -/
inductive Json where
  | null
  | bool (b : Bool)
  | num (n : Int)
  | str (s : String)
  | arr (elems : List Json)
  | obj (fields : List (String × Json))

/-- `Value::as_object`. -/
def Json.asObject : Json → Option (List (String × Json))
  | .obj fields => some fields
  | _ => none

/-- The key list of an object's field list. -/
def objKeys (fields : List (String × Json)) : List String :=
  fields.map Prod.fst

/-- Top-level keys of a JSON value (empty for non-objects). -/
def Json.topKeys : Json → List String
  | .obj fields => fields.map Prod.fst
  | _ => []

/-- `Map::insert` — replace the value under an existing key or append
the new entry. -/
def mapInsert (m : List (String × Json)) (k : String) (v : Json) :
    List (String × Json) :=
  if m.any (fun p => p.1 == k) then
    m.map (fun p => if p.1 == k then (k, v) else p)
  else m ++ [(k, v)]

/-- The merge loop of `merge_updates`: `merged = l.clone(); for (k, v)
in r { merged.insert(k, v) }`. -/
def insertAll (l r : List (String × Json)) : List (String × Json) :=
  r.foldl (fun acc p => mapInsert acc p.1 p.2) l

/-- `ChangeOperation`. -/
inductive ChangeOperation where
  | Create
  | Update
  | Delete
deriving DecidableEq

/-- `Change` — a journal record. -/
structure Change where
  id : Nat
  entity_type : String
  entity_id : Nat
  operation : ChangeOperation
  data : Json
  timestamp : Nat
  device_id : String
  version : VersionVector

/-- `Change::new` — fresh id and clock reading passed as oracles; the
version vector is freshly instantiated empty (`VersionVector::new()`). -/
def Change.new (freshId now : Nat) (entity_type : String) (entity_id : Nat)
    (operation : ChangeOperation) (data : Json) (device_id : String) : Change :=
  { id := freshId, entity_type := entity_type, entity_id := entity_id,
    operation := operation, data := data, timestamp := now,
    device_id := device_id, version := VersionVector.new }

/-- `Change::create`. -/
def Change.create (freshId now : Nat) (entity_type : String) (entity_id : Nat)
    (data : Json) (device_id : String) : Change :=
  Change.new freshId now entity_type entity_id ChangeOperation.Create data device_id

/-- `Change::update`. -/
def Change.updateChange (freshId now : Nat) (entity_type : String)
    (entity_id : Nat) (data : Json) (device_id : String) : Change :=
  Change.new freshId now entity_type entity_id ChangeOperation.Update data device_id

/-- `Change::delete` — payload `Value::Null`. -/
def Change.deleteChange (freshId now : Nat) (entity_type : String)
    (entity_id : Nat) (device_id : String) : Change :=
  Change.new freshId now entity_type entity_id ChangeOperation.Delete Json.null device_id

/-- `ResolutionResult` (the `Conflict` variant is the spec's
`NeedsManual`). -/
inductive ResolutionResult where
  | KeepLocal
  | KeepRemote
  | Merge (c : Change)
  | Conflict

/-- `ConflictResolver::merge_updates` — merge two Update payloads when
their top-level keys are disjoint, else last-writer-wins with the local
change favoured on a timestamp tie. The merged change takes a fresh id
(oracle), the max timestamp, the `"<local>_merged"` device sentinel and
— as in the source — `local.version.clone()`, not the merged vector. -/
def merge_updates (freshId : Nat) (localC remoteC : Change) : ResolutionResult :=
  match localC.data.asObject, remoteC.data.asObject with
  | some l, some r =>
    if (objKeys l).all (fun k => !(objKeys r).contains k) then
      ResolutionResult.Merge
        { id := freshId, entity_type := localC.entity_type,
          entity_id := localC.entity_id, operation := ChangeOperation.Update,
          data := Json.obj (insertAll l r),
          timestamp := max localC.timestamp remoteC.timestamp,
          device_id := localC.device_id ++ "_merged",
          version := localC.version }
    else if localC.timestamp ≥ remoteC.timestamp then ResolutionResult.KeepLocal
    else ResolutionResult.KeepRemote
  | _, _ =>
    if localC.timestamp ≥ remoteC.timestamp then ResolutionResult.KeepLocal
    else ResolutionResult.KeepRemote

/-- `ConflictResolver::resolve` — the decision table of the source, in
the source's match order (delete bias first). -/
def resolve (freshId : Nat) (localC remoteC : Change) : ResolutionResult :=
  match localC.operation, remoteC.operation with
  | ChangeOperation.Delete, _ => ResolutionResult.KeepLocal
  | _, ChangeOperation.Delete => ResolutionResult.KeepRemote
  | ChangeOperation.Create, ChangeOperation.Create =>
    if localC.timestamp ≥ remoteC.timestamp then ResolutionResult.KeepLocal
    else ResolutionResult.KeepRemote
  | ChangeOperation.Update, ChangeOperation.Update =>
    merge_updates freshId localC remoteC
  | ChangeOperation.Create, ChangeOperation.Update => ResolutionResult.KeepRemote
  | ChangeOperation.Update, ChangeOperation.Create => ResolutionResult.KeepLocal

/-- Projection used to state facts about a `Merge` result. -/
def resolutionMergeChange : ResolutionResult → Option Change
  | ResolutionResult.Merge c => some c
  | _ => none

theorem objKeys_mapInsert (m : List (String × Json)) (k : String) (v : Json)
    (x : String) :
    x ∈ objKeys (mapInsert m k v) ↔ x ∈ objKeys m ∨ x = k := by
  unfold mapInsert
  by_cases hany : m.any (fun p => p.1 == k) = true
  · rw [if_pos hany]
    have hkeys : objKeys (m.map (fun p => if p.1 == k then (k, v) else p)) =
        objKeys m := by
      unfold objKeys
      rw [List.map_map]
      refine List.map_congr_left (fun p _ => ?_)
      by_cases hp : p.1 = k
      · simp [Function.comp_apply, hp]
      · simp [Function.comp_apply, hp]
    rw [hkeys]
    rw [List.any_eq_true] at hany
    obtain ⟨p, hp, hpk⟩ := hany
    rw [beq_iff_eq] at hpk
    constructor
    · exact Or.inl
    · rintro (hx | rfl)
      · exact hx
      · exact hpk ▸ List.mem_map_of_mem Prod.fst hp
  · rw [if_neg hany]
    unfold objKeys
    rw [List.map_append]
    simp [List.mem_append]

theorem objKeys_insertAll (l r : List (String × Json)) (x : String) :
    x ∈ objKeys (insertAll l r) ↔ x ∈ objKeys l ∨ x ∈ objKeys r := by
  induction r generalizing l with
  | nil =>
    simp [insertAll, objKeys]
  | cons p r' ih =>
    have hstep : insertAll l (p :: r') = insertAll (mapInsert l p.1 p.2) r' := rfl
    rw [hstep, ih, objKeys_mapInsert]
    unfold objKeys
    simp only [List.map_cons, List.mem_cons]
    tauto

/-- C2 (amended): for two Update changes whose payloads are objects with
no shared top-level key, `resolve` returns `Merge c` where `c.payload`
holds every key of both payloads, `c.timestamp` is the max,
`c.id` is the fresh id, `c.origin_device` is the `"<local>_merged"`
sentinel, and — deviating from the original claim — `c.version` is
`local.version` unchanged: the source clones the local vector and never
merges the remote one (see the counterexample). -/
theorem C2_merge_disjoint_amended (freshId : Nat) (localC remoteC : Change)
    (lf rf : List (String × Json))
    (hl : localC.operation = ChangeOperation.Update)
    (hr : remoteC.operation = ChangeOperation.Update)
    (hlo : localC.data.asObject = some lf)
    (hro : remoteC.data.asObject = some rf)
    (hdisj : (objKeys lf).all (fun k => !(objKeys rf).contains k) = true) :
    ∃ c, resolve freshId localC remoteC = ResolutionResult.Merge c ∧
      (∀ k, k ∈ c.data.topKeys ↔ (k ∈ objKeys lf ∨ k ∈ objKeys rf)) ∧
      c.timestamp = max localC.timestamp remoteC.timestamp ∧
      c.id = freshId ∧
      c.device_id = localC.device_id ++ "_merged" ∧
      c.version = localC.version ∧
      c.entity_type = localC.entity_type ∧
      c.entity_id = localC.entity_id ∧
      c.operation = ChangeOperation.Update := by
  have hres : resolve freshId localC remoteC = merge_updates freshId localC remoteC := by
    unfold resolve
    rw [hl, hr]
  rw [hres]
  unfold merge_updates
  rw [hlo, hro]
  simp only [hdisj, if_true]
  refine ⟨_, rfl, ?_, rfl, rfl, rfl, rfl, rfl, rfl, rfl⟩
  intro k
  exact objKeys_insertAll lf rf k

/-- Local change of spec scenario 2 ("concurrent disjoint fields"). -/
def lcC2 : Change :=
  ⟨10, "Patient", 7, ChangeOperation.Update,
    Json.obj [("phone", Json.str "555-0100")], 10, "A", [(1, 1)]⟩

/-- Remote change of spec scenario 2. -/
def rcC2 : Change :=
  ⟨11, "Patient", 7, ChangeOperation.Update,
    Json.obj [("email", Json.str "ada@x")], 11, "B", [(2, 1)]⟩

/-- Counterexample to C2 as stated: on the spec's own "concurrent
disjoint fields" scenario (local vector `{A:1}`, remote `{B:1}`), the
merged change carries `local.version` (`{A:1}`) and not
`local.version.merged(remote.version)` (`{A:1, B:1}`). -/
theorem C2_version_not_merged_counterexample :
    (resolutionMergeChange (resolve 99 lcC2 rcC2)).map Change.version =
        some [(1, 1)] ∧
      VersionVector.merge [(1, 1)] [(2, 1)] = [(1, 1), (2, 1)] ∧
      ([(1, 1)] : VersionVector) ≠ [(1, 1), (2, 1)] :=
  ⟨rfl, by decide, by decide⟩

/-- Witness for C2 on the concrete scenario-2 changes. -/
theorem C2_merge_disjoint_witness :
    (resolutionMergeChange (resolve 99 lcC2 rcC2)).map Change.timestamp =
        some 11 ∧
      (resolutionMergeChange (resolve 99 lcC2 rcC2)).map Change.id = some 99 := by
  obtain ⟨c, hc, -, hts, hid, -, -, -, -, -⟩ :=
    C2_merge_disjoint_amended 99 lcC2 rcC2
      [("phone", Json.str "555-0100")] [("email", Json.str "ada@x")]
      rfl rfl rfl rfl (by decide)
  rw [hc]
  constructor
  · simp [resolutionMergeChange, hts, lcC2, rcC2]
  · simp [resolutionMergeChange, hid]

/-! ## Sync engine conflict dispatch (`hedtronix-sync/src/engine.rs`) -/

/-- `SyncError`. -/
inductive SyncError where
  | Database (s : String)
  | Network (s : String)
  | Conflict (s : String)
  | Serialization (s : String)
  | SyncInProgress

/-- `SyncEngine::apply_change_to_db` — the source logs the application
and returns `Ok(())`. -/
def apply_change_to_db (_change : Change) : Except SyncError Unit :=
  Except.ok ()

/-- `SyncEngine::apply_single_change` — look up a pending local change
on the same `(entity_type, entity_id)` (the journal read is passed in as
`pending`), resolve against it and execute the decision. -/
def apply_single_change (freshId : Nat) (pending : List Change)
    (change : Change) : Except SyncError Unit :=
  match pending.find? (fun c =>
      c.entity_id == change.entity_id && c.entity_type == change.entity_type) with
  | some localC =>
    match resolve freshId localC change with
    | ResolutionResult.KeepLocal => Except.ok ()
    | ResolutionResult.KeepRemote => apply_change_to_db change
    | ResolutionResult.Merge merged => apply_change_to_db merged
    | ResolutionResult.Conflict =>
      Except.error (SyncError.Conflict ("Conflict on " ++ change.entity_type))
  | none => apply_change_to_db change

theorem merge_updates_ne_conflict (freshId : Nat) (localC remoteC : Change) :
    merge_updates freshId localC remoteC ≠ ResolutionResult.Conflict := by
  unfold merge_updates
  split
  · split_ifs <;> simp
  · split_ifs <;> simp

theorem resolve_ne_conflict (freshId : Nat) (localC remoteC : Change) :
    resolve freshId localC remoteC ≠ ResolutionResult.Conflict := by
  unfold resolve
  split <;> first
    | exact merge_updates_ne_conflict freshId localC remoteC
    | (split_ifs <;> simp)
    | simp

/-- C9: the base resolver never returns the manual-resolution variant,
and consequently the `Conflict` error branch of `apply_single_change` is
unreachable: the engine never surfaces a `SyncError::Conflict` from it. -/
theorem C9_resolver_never_needs_manual :
    (∀ freshId localC remoteC,
        resolve freshId localC remoteC ≠ ResolutionResult.Conflict) ∧
      (∀ freshId pending change msg,
        apply_single_change freshId pending change ≠
          Except.error (SyncError.Conflict msg)) := by
  refine ⟨resolve_ne_conflict, ?_⟩
  intro freshId pending change msg
  unfold apply_single_change
  cases hf : pending.find? (fun c =>
      c.entity_id == change.entity_id && c.entity_type == change.entity_type) with
  | none => simp [apply_change_to_db]
  | some localC =>
    cases hres : resolve freshId localC change with
    | KeepLocal => simp [hres, apply_change_to_db]
    | KeepRemote => simp [hres, apply_change_to_db]
    | Merge merged => simp [hres, apply_change_to_db]
    | Conflict => exact absurd hres (resolve_ne_conflict freshId localC change)

/-- Local change of the C10 witness: Update with a non-object payload. -/
def lcC10 : Change := Change.updateChange 1 10 "Patient" 5 Json.null "A"

/-- Remote change of the C10 witness. -/
def rcC10 : Change := Change.updateChange 2 9 "Patient" 5 Json.null "B"

/-- C10: for two Update changes where at least one payload is not a JSON
object, `resolve` falls back to last-writer-wins — `KeepLocal` when
`local.timestamp ≥ remote.timestamp` (ties favour local), `KeepRemote`
otherwise — and in particular never merges. -/
theorem C10_non_object_update_lww (freshId : Nat) (localC remoteC : Change)
    (hl : localC.operation = ChangeOperation.Update)
    (hr : remoteC.operation = ChangeOperation.Update)
    (hobj : localC.data.asObject = none ∨ remoteC.data.asObject = none) :
    resolve freshId localC remoteC =
      if localC.timestamp ≥ remoteC.timestamp then ResolutionResult.KeepLocal
      else ResolutionResult.KeepRemote := by
  have hres : resolve freshId localC remoteC = merge_updates freshId localC remoteC := by
    unfold resolve
    rw [hl, hr]
  rw [hres]
  unfold merge_updates
  rcases hobj with h | h
  · rw [h]
  · rw [h]
    cases hlo : localC.data.asObject <;> rfl

/-- Witness for C10: a timestamp tie between two null-payload updates is
kept local. -/
theorem C10_non_object_update_lww_witness :
    resolve 0 lcC10 rcC10 = ResolutionResult.KeepLocal :=
  (C10_non_object_update_lww 0 lcC10 rcC10 rfl rfl (Or.inl rfl)).trans
    (if_pos (by decide))

/-! ## Change journal
(`hedtronix-db/src/repositories/sync_repository.rs`,
`hedtronix-sync/src/engine.rs` tracking helpers)

The `sync_queue` table is modelled as its list of rows in insertion
(rowid) order. `schema.sql` is loaded via `include_str!` in
`connection.rs` and is not among the sources, so its constraint is
modelled from the spec where noted. -/

/-- `DbError` (the rusqlite error surface used here). -/
inductive DbError where
  | Constraint (s : String)
  | Connection (s : String)
deriving DecidableEq

/-- A `sync_queue` row: the persisted change columns plus the sync
flag (the further bookkeeping columns play no role in the claims). -/
structure JournalRow where
  change : Change
  synced : Bool

/-- `SyncRepository::queue_change` — the source runs a plain
`INSERT INTO sync_queue (...) VALUES (..., 0)` with the change's fields.
Modelled from the spec: `schema.sql` is missing from the sources and
spec §6 declares `sync_queue(id TEXT PRIMARY KEY, ...)`, so inserting an
id already present violates the primary key: SQLite rejects the insert
with a constraint error and the table is unchanged. -/
def queue_change (j : List JournalRow) (c : Change) :
    Except DbError (List JournalRow) :=
  if j.any (fun row => row.change.id == c.id) then
    Except.error (DbError.Constraint "UNIQUE constraint failed: sync_queue.id")
  else Except.ok (j ++ [⟨c, false⟩])

/-- `SyncRepository::pending_count` — `SELECT COUNT(*) FROM sync_queue
WHERE synced = 0`, an `i64`. -/
def pending_count (j : List JournalRow) : Int :=
  ((j.filter (fun r => !r.synced)).length : Int)

/-- Insertion step of the `ORDER BY timestamp ASC` model: the new row
goes after every row with a `≤` timestamp, which keeps ties in table
order (SQLite applies no further ordering key). -/
def insertByTs (c : Change) : List Change → List Change
  | [] => [c]
  | d :: rest =>
    if c.timestamp < d.timestamp then c :: d :: rest else d :: insertByTs c rest

/-- Stable sort by timestamp of the rows in table order. -/
def sortByTs (l : List Change) : List Change :=
  l.foldl (fun acc c => insertByTs c acc) []

/-- `SyncRepository::get_pending_changes` — `SELECT ... WHERE synced = 0
ORDER BY timestamp ASC LIMIT ?`, rows parsed back into `Change`s. -/
def get_pending_changes (j : List JournalRow) (limit : Nat) : List Change :=
  (sortByTs ((j.filter (fun r => !r.synced)).map (fun r => r.change))).take limit

/-- `SyncEngine::track_create` — build the Change (fresh id, current
clock, the engine's device id) and queue it. -/
def track_create (device_id : String) (j : List JournalRow) (freshId now : Nat)
    (entity_type : String) (entity_id : Nat) (data : Json) :
    Except DbError (List JournalRow) :=
  queue_change j (Change.create freshId now entity_type entity_id data device_id)

/-- `SyncEngine::track_update`. -/
def track_update (device_id : String) (j : List JournalRow) (freshId now : Nat)
    (entity_type : String) (entity_id : Nat) (data : Json) :
    Except DbError (List JournalRow) :=
  queue_change j (Change.updateChange freshId now entity_type entity_id data device_id)

/-- `SyncEngine::track_delete`. -/
def track_delete (device_id : String) (j : List JournalRow) (freshId now : Nat)
    (entity_type : String) (entity_id : Nat) :
    Except DbError (List JournalRow) :=
  queue_change j (Change.deleteChange freshId now entity_type entity_id device_id)

/-- C1: evaluating the tracking path at a concrete call. `track_create`
appends exactly one row, but the appended Change's version vector is
`VersionVector::new()` — empty, every device component `0` — not a
vector with the calling device's component incremented (which would read
`1` for the device). `Change::new` instantiates a fresh empty vector and
never calls `increment`. -/
theorem C1_track_create_version_not_incremented :
    track_create "A" [] 7 10 "Patient" 1 Json.null =
        Except.ok [⟨Change.create 7 10 "Patient" 1 Json.null "A", false⟩] ∧
      (Change.create 7 10 "Patient" 1 Json.null "A").version = VersionVector.new ∧
      VersionVector.get (Change.create 7 10 "Patient" 1 Json.null "A").version 0 = 0 ∧
      VersionVector.get (VersionVector.increment VersionVector.new 0) 0 = 1 :=
  ⟨rfl, rfl, rfl, rfl⟩

/-- The concrete change used for the C3 counterexample and witness. -/
def cC3 : Change := Change.create 7 10 "Patient" 1 Json.null "A"

/-- Counterexample to C3 as stated: appending the same change twice does
not succeed — the second `INSERT` hits the `sync_queue.id` primary key
and `queue_change` returns an error rather than a no-op success. -/
theorem C3_reappend_errors_counterexample :
    queue_change [] cC3 = Except.ok [⟨cC3, false⟩] ∧
      queue_change [⟨cC3, false⟩] cC3 =
        Except.error (DbError.Constraint "UNIQUE constraint failed: sync_queue.id") :=
  ⟨rfl, rfl⟩

/-- C3 (amended): re-appending a change with an id already in the
journal fails with the UNIQUE-constraint error and leaves the journal
unchanged, so `pending_count` still equals the value after the single
successful append (one more than before it). -/
theorem C3_append_not_idempotent_amended (j : List JournalRow) (c : Change)
    (j' : List JournalRow) (h : queue_change j c = Except.ok j') :
    queue_change j' c =
        Except.error (DbError.Constraint "UNIQUE constraint failed: sync_queue.id") ∧
      pending_count j' = pending_count j + 1 := by
  unfold queue_change at h
  by_cases hany : j.any (fun row => row.change.id == c.id) = true
  · rw [if_pos hany] at h
    cases h
  · rw [if_neg hany] at h
    injection h with h'
    subst h'
    constructor
    · unfold queue_change
      rw [if_pos (by simp [List.any_append])]
    · unfold pending_count
      rw [List.filter_append]
      simp

/-- Witness for C3 at the concrete change. -/
theorem C3_append_not_idempotent_witness :
    queue_change [⟨cC3, false⟩] cC3 =
        Except.error (DbError.Constraint "UNIQUE constraint failed: sync_queue.id") ∧
      pending_count [⟨cC3, false⟩] = pending_count [] + 1 :=
  C3_append_not_idempotent_amended [] cC3 [⟨cC3, false⟩] rfl

theorem mem_insertByTs (c x : Change) (l : List Change) :
    x ∈ insertByTs c l ↔ x = c ∨ x ∈ l := by
  induction l with
  | nil => simp [insertByTs]
  | cons d rest ih =>
    unfold insertByTs
    split_ifs
    · simp [List.mem_cons]
    · rw [List.mem_cons, ih, List.mem_cons]
      tauto

theorem pairwise_insertByTs (c : Change) (l : List Change)
    (h : List.Pairwise (fun a b => a.timestamp ≤ b.timestamp) l) :
    List.Pairwise (fun a b => a.timestamp ≤ b.timestamp) (insertByTs c l) := by
  induction l with
  | nil => simp [insertByTs]
  | cons d rest ih =>
    obtain ⟨hd, hrest⟩ := List.pairwise_cons.mp h
    unfold insertByTs
    split_ifs with hlt
    · refine List.pairwise_cons.mpr ⟨?_, h⟩
      intro x hx
      rcases List.mem_cons.mp hx with rfl | hx
      · omega
      · have := hd x hx
        omega
    · refine List.pairwise_cons.mpr ⟨?_, ih hrest⟩
      intro x hx
      rcases (mem_insertByTs c x rest).mp hx with rfl | hx
      · omega
      · exact hd x hx

theorem sortByTs_pairwise_aux (l acc : List Change)
    (hacc : List.Pairwise (fun a b => a.timestamp ≤ b.timestamp) acc) :
    List.Pairwise (fun a b => a.timestamp ≤ b.timestamp)
      (l.foldl (fun acc c => insertByTs c acc) acc) := by
  induction l generalizing acc with
  | nil => exact hacc
  | cons c l' ih => exact ih (insertByTs c acc) (pairwise_insertByTs c acc hacc)

theorem mem_sortByTs_aux (l : List Change) :
    ∀ (acc : List Change) (x : Change),
      x ∈ l.foldl (fun acc c => insertByTs c acc) acc ↔ x ∈ acc ∨ x ∈ l := by
  induction l with
  | nil => intro acc x; simp
  | cons c l' ih =>
    intro acc x
    have := ih (insertByTs c acc) x
    rw [List.foldl_cons, this, mem_insertByTs]
    rw [List.mem_cons]
    tauto

/-- C7 (amended): `pending(limit)` returns at most `limit` changes, all
of them unsynced rows of the journal, sorted by timestamp ascending —
but ties are left in table order: the query orders by `timestamp` only
and applies no `(origin_device, id)` tie-break (see the
counterexample). -/
theorem C7_pending_sorted_amended (j : List JournalRow) (limit : Nat) :
    (get_pending_changes j limit).length ≤ limit ∧
      List.Pairwise (fun a b => a.timestamp ≤ b.timestamp)
        (get_pending_changes j limit) ∧
      ∀ c ∈ get_pending_changes j limit,
        ∃ r ∈ j, r.change = c ∧ r.synced = false := by
  refine ⟨?_, ?_, ?_⟩
  · unfold get_pending_changes
    exact List.length_take_le limit _
  · unfold get_pending_changes
    exact List.Pairwise.sublist (List.take_sublist _ _)
      (sortByTs_pairwise_aux _ [] List.Pairwise.nil)
  · intro c hc
    unfold get_pending_changes at hc
    have hmem : c ∈ sortByTs ((j.filter (fun r => !r.synced)).map
        (fun r => r.change)) :=
      List.mem_of_mem_take hc
    unfold sortByTs at hmem
    rw [mem_sortByTs_aux _ [] c] at hmem
    rcases hmem with h | h
    · cases h
    · rw [List.mem_map] at h
      obtain ⟨r, hr, rfl⟩ := h
      rw [List.mem_filter] at hr
      exact ⟨r, hr.1, rfl, by simpa using hr.2⟩

/-- First-inserted row of the C7 counterexample (device `"b"`). -/
def rowB : JournalRow :=
  ⟨⟨1, "Patient", 7, ChangeOperation.Update, Json.null, 5, "b", []⟩, false⟩

/-- Second-inserted row of the C7 counterexample (device `"a"`). -/
def rowA : JournalRow :=
  ⟨⟨2, "Patient", 7, ChangeOperation.Update, Json.null, 5, "a", []⟩, false⟩

/-- Counterexample to C7 as stated: two unsynced rows with equal
timestamps come back in table order `["b", "a"]`, not ordered by
`(origin_device, id)` (which demands `"a"` before `"b"`). -/
theorem C7_tie_order_counterexample :
    (get_pending_changes [rowB, rowA] 10).map Change.device_id = ["b", "a"] ∧
      (get_pending_changes [rowB, rowA] 10).map Change.timestamp = [5, 5] ∧
      "a".data = ['a'] ∧ "b".data = ['b'] ∧ ('a' : Char) < 'b' :=
  ⟨rfl, rfl, rfl, rfl, by decide⟩

/-! ## OR-list observation (claim C8) -/

/-- C8 (amended): `get_active` returns exactly the elements with
`deleted = false`, preserving the map's iteration order (it is a
sublist of the stored element sequence); the source applies no sort, so
the result is not ordered by `(timestamp, device_id)` (see the
counterexample). -/
theorem C8_active_filter_amended (l : CRDTList) :
    (∀ e, e ∈ CRDTList.get_active l ↔ (e ∈ l ∧ e.deleted = false)) ∧
      List.Sublist (CRDTList.get_active l) l := by
  constructor
  · intro e
    unfold CRDTList.get_active
    rw [List.mem_filter]
    simp
  · exact List.filter_sublist l

/-- First element of the C8 counterexample (timestamp 5). -/
def e8a : ListElement := ⟨1, 0, 5, 0, false⟩

/-- Second element of the C8 counterexample (timestamp 3). -/
def e8b : ListElement := ⟨2, 0, 3, 0, false⟩

/-- Third element of the C8 counterexample (timestamp 4). -/
def e8c : ListElement := ⟨3, 0, 4, 0, false⟩

/-- Counterexample to C8 as stated: three live elements with timestamps
`5, 3, 4` come back in iteration order, which is sorted neither
ascending nor descending in the `(timestamp, device_id)` total order. -/
theorem C8_active_not_sorted_counterexample :
    CRDTList.get_active [e8a, e8b, e8c] = [e8a, e8b, e8c] ∧
      ¬List.Pairwise (fun x y : ListElement =>
          x.timestamp < y.timestamp ∨
            (x.timestamp = y.timestamp ∧ x.device_id ≤ y.device_id))
        [e8a, e8b, e8c] ∧
      ¬List.Pairwise (fun x y : ListElement =>
          y.timestamp < x.timestamp ∨
            (y.timestamp = x.timestamp ∧ y.device_id ≤ x.device_id))
        [e8a, e8b, e8c] :=
  ⟨rfl, by decide, by decide⟩

/-! ## Field encryption (`hedtronix-crypto/src/encryption.rs`)

`Encryptor::decrypt` base64-decodes the blob, rejects decoded inputs
shorter than 12 bytes with `InvalidFormat` (the spec's `MalformedBlob`),
splits off the 12-byte nonce and hands the rest to ring's AES-256-GCM
`open_in_place`, mapping any failure to the `Decryption` error (the
spec's `AuthTagMismatch`). The embedding works on the decoded byte list
and abstracts the external AEAD primitive as the `aeadOpen` argument
(key already bound; tampering or a wrong key makes it return `none`);
the trailing UTF-8 decoding step only affects the success payload. -/

/-- `EncryptionError`. -/
inductive EncryptionError where
  | KeyGeneration (s : String)
  | Encryption (s : String)
  | Decryption (s : String)
  | InvalidKeyLength
  | InvalidFormat
deriving DecidableEq

/-- `Encryptor::decrypt` on the base64-decoded bytes. -/
def decryptBytes (aeadOpen : List Nat → List Nat → Option (List Nat))
    (data : List Nat) : Except EncryptionError (List Nat) :=
  if data.length < 12 then Except.error EncryptionError.InvalidFormat
  else
    match aeadOpen (data.take 12) (data.drop 12) with
    | some plaintext => Except.ok plaintext
    | none => Except.error (EncryptionError.Decryption "Decryption failed")

/-- An AEAD open that always fails authentication — the behaviour of
AES-256-GCM on every input whose ciphertext-plus-tag part is shorter
than the 16-byte tag. -/
def openNone : List Nat → List Nat → Option (List Nat) :=
  fun _ _ => none

/-- C6 (amended): `decrypt` returns `MalformedBlob` (`InvalidFormat`)
exactly for decoded blobs shorter than 12 bytes — not 28 as claimed:
blobs of 12 to 27 bytes pass the length check and fail inside the AEAD
(whose tag is 16 bytes), yielding the same `Decryption` error as
tampering; and whenever the AEAD rejects the input (flipped ciphertext
or nonce byte, wrong key), `decrypt` returns that `Decryption` error. -/
theorem C6_decrypt_errors_amended
    (aeadOpen : List Nat → List Nat → Option (List Nat)) (data : List Nat)
    (h16 : ∀ n d, d.length < 16 → aeadOpen n d = none) :
    (data.length < 12 →
        decryptBytes aeadOpen data = Except.error EncryptionError.InvalidFormat) ∧
      (12 ≤ data.length → data.length < 28 →
        decryptBytes aeadOpen data =
          Except.error (EncryptionError.Decryption "Decryption failed")) ∧
      (12 ≤ data.length → aeadOpen (data.take 12) (data.drop 12) = none →
        decryptBytes aeadOpen data =
          Except.error (EncryptionError.Decryption "Decryption failed")) := by
  refine ⟨?_, ?_, ?_⟩
  · intro h
    unfold decryptBytes
    rw [if_pos h]
  · intro h1 h2
    have hdrop : (data.drop 12).length < 16 := by
      rw [List.length_drop]
      omega
    unfold decryptBytes
    rw [if_neg (by omega), h16 (data.take 12) (data.drop 12) hdrop]
  · intro h1 hopen
    unfold decryptBytes
    rw [if_neg (by omega), hopen]

/-- Witness for C6 on concrete blobs: a 20-byte blob fails with the
`Decryption` error, a 5-byte blob with `InvalidFormat`. -/
theorem C6_decrypt_errors_witness :
    decryptBytes openNone (List.replicate 20 0) =
        Except.error (EncryptionError.Decryption "Decryption failed") ∧
      decryptBytes openNone (List.replicate 5 0) =
        Except.error EncryptionError.InvalidFormat := by
  have h20 := C6_decrypt_errors_amended openNone (List.replicate 20 0)
    (fun _ _ _ => rfl)
  have h5 := C6_decrypt_errors_amended openNone (List.replicate 5 0)
    (fun _ _ _ => rfl)
  exact ⟨h20.2.1 (by simp) (by simp), h5.1 (by simp)⟩

/-- Counterexample to C6 as stated: a decoded blob of exactly 12 bytes
is shorter than 28, yet `decrypt` does not return `MalformedBlob`
(`InvalidFormat`): the length check only rejects inputs below 12 bytes,
and this input reaches the AEAD (whose empty ciphertext-plus-tag cannot
authenticate) and fails with the `Decryption` error instead. -/
theorem C6_twelve_byte_blob_counterexample :
    (List.replicate 12 0).length < 28 ∧
      decryptBytes openNone (List.replicate 12 0) =
        Except.error (EncryptionError.Decryption "Decryption failed") ∧
      decryptBytes openNone (List.replicate 12 0) ≠
        Except.error EncryptionError.InvalidFormat := by
  refine ⟨by decide, rfl, fun h => ?_⟩
  have h0 : decryptBytes openNone (List.replicate 12 0) =
      Except.error (EncryptionError.Decryption "Decryption failed") := rfl
  rw [h0] at h
  injection h with h3
  cases h3
